import Mathlib

/-!
Shallow embedding of the MIDI editing engine (`src/midi-engine.js`) of the
mozart plugin.  JavaScript numbers are modelled as exact rationals `ℚ`
(every computation the claims below exercise is exact in binary floating
point as well); integer-valued quantities that JavaScript produces with
`Math.round` or integer arithmetic are modelled as `ℤ`/`ℕ`.  The engine's
unbounded `while` loops are modelled with explicit fuel, returning `none`
when the fuel runs out, so that non-termination of the source loop
corresponds to `none` for every fuel value.
-/

namespace Mozart

/-- JavaScript `Math.round`: round half toward positive infinity,
i.e. `floor(x + 1/2)`. -/
def jsRound (q : ℚ) : ℤ :=
  (q + 1/2).floor

/-- One entry of `midi.header.tempos`: `{ ticks, bpm }`. -/
structure TempoEvent where
  ticks : ℚ
  bpm : ℚ
deriving DecidableEq

/-- One entry of `midi.header.timeSignatures`:
`{ ticks, timeSignature: [num, den] }`. -/
structure TimeSigEvent where
  ticks : ℚ
  num : ℚ
  den : ℚ
deriving DecidableEq

/-- One note of a track, with the fields the engine reads:
`ticks` (onset), `durationTicks`, `midi` (pitch number) and the
normalized `velocity` in `[0,1]`. -/
structure Note where
  ticks : ℚ
  durationTicks : ℚ
  midi : ℤ
  velocity : ℚ
deriving DecidableEq

/-- A track: the engine's note-level operations only touch `track.notes`. -/
structure Track where
  notes : List Note
deriving DecidableEq

/-- `midi.header`: ppq plus the two event lists of the temporal map. -/
structure MidiHeader where
  ppq : ℚ
  tempos : List TempoEvent
  timeSignatures : List TimeSigEvent
deriving DecidableEq

/-- A loaded MIDI document. -/
structure Midi where
  header : MidiHeader
  tracks : List Track
deriving DecidableEq

/-- Loop body of `tempoAtTick`: `for (const t of tempos) { if (t.ticks <= tick)
bpm = t.bpm; else break; }`. -/
def tempoScan (tick : ℚ) : ℚ → List TempoEvent → ℚ
  | bpm, [] => bpm
  | bpm, t :: rest => if t.ticks ≤ tick then tempoScan tick t.bpm rest else bpm

/-- `tempoAtTick(midi, tick)`: default 120 on an empty list, otherwise a
scan seeded with the first event's bpm that stops at the first event whose
tick exceeds `tick`. -/
def tempoAtTick (m : Midi) (tick : ℚ) : ℚ :=
  match m.header.tempos with
  | [] => 120
  | t0 :: _ => tempoScan tick t0.bpm m.header.tempos

/-- Loop body of `timeSigAtTick`, same shape as `tempoScan`. -/
def sigScan (tick : ℚ) : ℚ × ℚ → List TimeSigEvent → ℚ × ℚ
  | sig, [] => sig
  | sig, s :: rest => if s.ticks ≤ tick then sigScan tick (s.num, s.den) rest else sig

/-- `timeSigAtTick(midi, tick)`: default `[4,4]` on an empty list. -/
def timeSigAtTick (m : Midi) (tick : ℚ) : ℚ × ℚ :=
  match m.header.timeSignatures with
  | [] => (4, 4)
  | s0 :: _ => sigScan tick (s0.num, s0.den) m.header.timeSignatures

/-- `ticksPerMeasure(midi, tick) = ppq * num * (4 / den)`. -/
def ticksPerMeasure (m : Midi) (tick : ℚ) : ℚ :=
  m.header.ppq * (timeSigAtTick m tick).1 * (4 / (timeSigAtTick m tick).2)

/-- The forward measure walk shared by `measureToTicks`: advance `k`
measures from tick `t`, adding `ticksPerMeasure` at the current tick each
step. -/
def measureWalk (m : Midi) : ℕ → ℚ → ℚ
  | 0, t => t
  | k + 1, t => measureWalk m k (t + ticksPerMeasure m t)

/-- The `{ start, end }` record returned by `measureToTicks` (`end` is a
Lean keyword, rendered `stop`). -/
structure TickRange where
  start : ℚ
  stop : ℚ
deriving DecidableEq

/-- `measureToTicks(midi, measure)`: walk `measure - 1` measures forward
from tick 0 (the source's `while (currentMeasure < measure)` loop, which
runs zero times for `measure ≤ 1` just like the truncated subtraction). -/
def measureToTicks (m : Midi) (measure : ℕ) : TickRange :=
  let s := measureWalk m (measure - 1) 0
  ⟨s, s + ticksPerMeasure m s⟩

/-- The `{ measure, beat }` result of `tickToMeasureBeat`. -/
structure MeasureBeat where
  measure : ℕ
  beat : ℚ
deriving DecidableEq

/-- The source's `while (true)` walk in `tickToMeasureBeat`, with explicit
fuel: `none` models the loop still running after `fuel` iterations. -/
def tickToMeasureBeatAux (m : Midi) (tick : ℚ) : ℕ → ℚ → ℕ → Option MeasureBeat
  | 0, _, _ => none
  | fuel + 1, currentTick, measure =>
    if tick < currentTick + ticksPerMeasure m currentTick then
      some ⟨measure, (tick - currentTick) / (m.header.ppq * (4 / (timeSigAtTick m currentTick).2)) + 1⟩
    else
      tickToMeasureBeatAux m tick fuel (currentTick + ticksPerMeasure m currentTick) (measure + 1)

/-- `tickToMeasureBeat(midi, tick)` with fuel; the source starts at
`currentTick = 0`, `measure = 1`. -/
def tickToMeasureBeat (m : Midi) (tick : ℚ) (fuel : ℕ) : Option MeasureBeat :=
  tickToMeasureBeatAux m tick fuel 0 1

/-- The sharps-only chromatic table `NOTE_NAMES` of the source (written
here as two halves joined by append). -/
def NOTE_NAMES : List String :=
  ["C", "C#", "D", "D#", "E", "F"] ++
    ["F#", "G", "G#", "A", "A#", "B"]

/-- `midiToNoteName(midiNum)`: `Math.floor(midiNum / 12) - 1` is floor
division (Lean's `/` on `ℤ` rounds toward negative infinity for the
positive divisor 12, exactly like `Math.floor` of the real quotient);
`midiNum % 12` is JavaScript's truncating remainder `Int.tmod`, and a
negative index into `NOTE_NAMES` yields `undefined`, printed as the string
`"undefined"` by the template literal. -/
def midiToNoteName (midiNum : ℤ) : String :=
  let octave : ℤ := midiNum / 12 - 1
  let r : ℤ := Int.tmod midiNum 12
  let name : String :=
    if 0 ≤ r then (NOTE_NAMES.get? r.toNat).getD "undefined" else "undefined"
  name ++ toString octave

/-- Letter part of the note-name regex `[A-Ga-g]` combined with the
`{C:0,...}[letter.toUpperCase()]` base lookup: `none` exactly when the
regex's letter class rejects the character. -/
def letterBase (c : Char) : Option ℤ :=
  match c.toUpper with
  | 'A' => some 9
  | 'B' => some 11
  | 'C' => some 0
  | 'D' => some 2
  | 'E' => some 4
  | 'F' => some 5
  | 'G' => some 7
  | _ => none

/-- Accidental part of the regex, `(#{0,2}|b{0,2})`, with the accidental
sum (`+1` per `#`, `-1` per `b`).  Because the octave part `-?\d+` can
never begin with `#` or `b`, the regex's backtracking matches exactly the
maximal leading run of one repeated accidental, and fails whenever that
run is longer than two (the leftover accidental character can not start
the octave). -/
def parseAccidentals (cs : List Char) : Option (ℤ × List Char) :=
  let sharps := cs.takeWhile fun c => c = '#'
  let flats := cs.takeWhile fun c => c = 'b'
  if sharps.length ≠ 0 then
    if sharps.length ≤ 2 then some ((sharps.length : ℤ), cs.drop sharps.length) else none
  else if flats.length ≠ 0 then
    if flats.length ≤ 2 then some (-(flats.length : ℤ), cs.drop flats.length) else none
  else
    some (0, cs)

/-- Decimal value of a digit string. -/
def digitsVal (cs : List Char) : ℕ :=
  cs.foldl (fun a c => 10 * a + (c.toNat - '0'.toNat)) 0

/-- Octave part of the regex, `(-?\d+)$` (an optional minus sign followed
by at least one digit, reaching the end of the string), evaluated with
`parseInt(octaveStr, 10)`. -/
def parseSignedInt (cs : List Char) : Option ℤ :=
  match cs with
  | [] => none
  | c :: ds =>
    if c = '-' then
      if ds ≠ [] ∧ ds.all Char.isDigit then some (-(digitsVal ds : ℤ)) else none
    else
      if (c :: ds).all Char.isDigit then some ((digitsVal (c :: ds) : ℤ)) else none

/-- `noteNameToMidi(name)`: match
`^([A-Ga-g])(#{0,2}|b{0,2})(-?\d+)$`, compute
`(octave + 1) * 12 + base + acc`, and reject results outside `[0,127]`;
`none` models the thrown `InvalidArgument` error. -/
def noteNameToMidi (name : String) : Option ℤ :=
  match name.data with
  | [] => none
  | c :: rest =>
    match letterBase c with
    | none => none
    | some base =>
      match parseAccidentals rest with
      | none => none
      | some (acc, rest2) =>
        match parseSignedInt rest2 with
        | none => none
        | some octave =>
          let midi := (octave + 1) * 12 + base + acc
          if midi < 0 ∨ 127 < midi then none else some midi

/-- Character-list worker of `jsStripDigits`: delete the first maximal
run of decimal digits. -/
def stripDigitsGo : List Char → List Char
  | [] => []
  | c :: rest => if c.isDigit then rest.dropWhile Char.isDigit else c :: stripDigitsGo rest

/-- JavaScript `.replace(/\d+/, '')`: delete the first maximal run of
decimal digits. -/
def jsStripDigits (s : String) : String :=
  ⟨stripDigitsGo s.data⟩

/-- JavaScript `.toUpperCase()` on the ASCII strings the engine handles. -/
def jsToUpperCase (s : String) : String :=
  ⟨s.data.map Char.toUpper⟩

/-- The optional filters of `searchNotes` (absent field = `undefined`). -/
structure SearchOpts where
  pitchMin : Option ℤ := none
  pitchMax : Option ℤ := none
  noteName : Option String := none
  trackIndex : Option ℕ := none
  measureStart : Option ℕ := none
  measureEnd : Option ℕ := none
deriving DecidableEq

/-- One entry of the `results` array built by `searchNotes`. -/
structure SearchResultNote where
  track : ℕ
  measure : ℕ
  beat : ℚ
  name : String
  midi : ℤ
  velocity : ℤ
  durationTicks : ℚ
deriving DecidableEq

/-- The pitch-class filter test `midiToNoteName(note.midi).replace(/\d+/, '')
!== noteName.toUpperCase()`, guarded by JavaScript truthiness of
`noteName` (an empty string is falsy, so no filtering happens). -/
def noteNameFails (o : SearchOpts) (n : Note) : Bool :=
  match o.noteName with
  | none => false
  | some f =>
    if f.data = [] then false
    else decide (jsStripDigits (midiToNoteName n.midi) ≠ jsToUpperCase f)

/-- Build the result record for a matching note (`tickToMeasureBeat` under
the given fuel; `none` propagates a non-terminating walk). -/
def mkSearchNote (m : Midi) (fuel ti : ℕ) (n : Note) : Option SearchResultNote :=
  match tickToMeasureBeat m n.ticks fuel with
  | none => none
  | some pos =>
    some
      { track := ti
        measure := pos.measure
        beat := (jsRound (pos.beat * 100) : ℚ) / 100
        name := midiToNoteName n.midi
        midi := n.midi
        velocity := jsRound (n.velocity * 127)
        durationTicks := n.durationTicks }

/-- One iteration of the `searchNotes` scan over a single note: the outer
`none` models divergence of the measure walk, `some none` a filtered-out
note, `some (some r)` a match. -/
def noteMatch (m : Midi) (o : SearchOpts) (fuel ti : ℕ) (n : Note) :
    Option (Option SearchResultNote) :=
  if (match o.pitchMin with | some p => decide (n.midi < p) | none => false) then some none
  else if (match o.pitchMax with | some p => decide (p < n.midi) | none => false) then some none
  else if noteNameFails o n then some none
  else if o.measureStart.isSome ∨ o.measureEnd.isSome then
    match tickToMeasureBeat m n.ticks fuel with
    | none => none
    | some pos =>
      if (match o.measureStart with | some ms => decide (pos.measure < ms) | none => false) then
        some none
      else if (match o.measureEnd with | some me => decide (me < pos.measure) | none => false) then
        some none
      else (mkSearchNote m fuel ti n).map some
  else (mkSearchNote m fuel ti n).map some

/-- Fold `noteMatch` over all scanned `(trackIndex, note)` pairs,
collecting the matches in scan order. -/
def collectMatches (m : Midi) (o : SearchOpts) (fuel : ℕ) :
    List (ℕ × Note) → Option (List SearchResultNote)
  | [] => some []
  | p :: rest =>
    match noteMatch m o fuel p.1 p.2 with
    | none => none
    | some none => collectMatches m o fuel rest
    | some (some r) =>
      match collectMatches m o fuel rest with
      | none => none
      | some rs => some (r :: rs)

/-- The `tracksToScan` selection of `searchNotes`, paired with each
track's index (the source recovers the index with `indexOf`, which is the
track's own position because track objects are distinct references). -/
def scanPairs (m : Midi) (o : SearchOpts) : List (ℕ × Note) :=
  match o.trackIndex with
  | some ti =>
    match m.tracks[ti]? with
    | none => []
    | some tr => tr.notes.map fun n => (ti, n)
  | none => m.tracks.enum.flatMap fun p => p.2.notes.map fun n => (p.1, n)

/-- The `(a.measure - b.measure || a.beat - b.beat || a.midi - b.midi)`
comparator: lexicographic order on `(measure, beat, midi)`. -/
def srnLE (a b : SearchResultNote) : Prop :=
  a.measure < b.measure ∨
    (a.measure = b.measure ∧ (a.beat < b.beat ∨ (a.beat = b.beat ∧ a.midi ≤ b.midi)))

instance : DecidableRel srnLE := fun a b => by
  unfold srnLE
  infer_instance

instance : IsTotal SearchResultNote srnLE :=
  ⟨by
    intro a b
    unfold srnLE
    rcases lt_trichotomy a.measure b.measure with h | h | h
    · exact Or.inl (Or.inl h)
    · rcases lt_trichotomy a.beat b.beat with h2 | h2 | h2
      · exact Or.inl (Or.inr ⟨h, Or.inl h2⟩)
      · rcases le_total a.midi b.midi with h3 | h3
        · exact Or.inl (Or.inr ⟨h, Or.inr ⟨h2, h3⟩⟩)
        · exact Or.inr (Or.inr ⟨h.symm, Or.inr ⟨h2.symm, h3⟩⟩)
      · exact Or.inr (Or.inr ⟨h.symm, Or.inl h2⟩)
    · exact Or.inr (Or.inl h)⟩

instance : IsTrans SearchResultNote srnLE :=
  ⟨by
    intro a b c hab hbc
    unfold srnLE at *
    rcases hab with h1 | ⟨e1, h1⟩
    · rcases hbc with h2 | ⟨e2, _⟩
      · exact Or.inl (h1.trans h2)
      · exact Or.inl (e2 ▸ h1)
    · rcases hbc with h2 | ⟨e2, h2⟩
      · exact Or.inl (e1 ▸ h2)
      · refine Or.inr ⟨e1.trans e2, ?_⟩
        rcases h1 with h1 | ⟨f1, h1⟩
        · rcases h2 with h2 | ⟨f2, _⟩
          · exact Or.inl (h1.trans h2)
          · exact Or.inl (f2 ▸ h1)
        · rcases h2 with h2 | ⟨f2, h2⟩
          · exact Or.inl (f1 ▸ h2)
          · exact Or.inr ⟨f1.trans f2, h1.trans h2⟩⟩

/-- The `{ count, notes }` value returned by `searchNotes`. -/
structure SearchResult where
  count : ℕ
  notes : List SearchResultNote
deriving DecidableEq

/-- `searchNotes(alias, opts)`: collect matches, sort with the
`(measure, beat, midi)` comparator (modelled by a stable insertion sort,
as `Array.prototype.sort` with a consistent comparator is specified to
produce a stable sorted permutation), report the full length as `count`
and `slice(0, 200)` as `notes`. -/
def searchNotes (m : Midi) (o : SearchOpts) (fuel : ℕ) : Option SearchResult :=
  match collectMatches m o fuel (scanPairs m o) with
  | none => none
  | some results =>
    let sorted := List.insertionSort srnLE results
    some ⟨sorted.length, sorted.take 200⟩

/-- One input element of the `notes` array of `addNotes`. -/
structure NoteInput where
  measure : ℕ
  beat : ℚ
  noteName : String
  velocity : Option ℚ
  durationBeats : ℚ
deriving DecidableEq

/-- One element of the `added` array reported by `addNotes`. -/
structure AddedNote where
  name : String
  midi : ℤ
  measure : ℕ
  beat : ℚ
  durationBeats : ℚ
  velocity : ℚ
deriving DecidableEq

/-- The tick/duration/velocity conversion of one `addNotes` iteration
(it reads only the header, never the tracks): `ticks = measureStart +
round((beat - 1) * ticksPerBeat)`, `durationTicks = round(durationBeats *
ticksPerBeat)`, `velocity = (velocity ?? 80) / 127`. -/
def convertNote (m : Midi) (n : NoteInput) (midiNum : ℤ) : Note :=
  let measureStart := (measureToTicks m n.measure).start
  let ticksPerBeat := m.header.ppq * (4 / (timeSigAtTick m measureStart).2)
  { ticks := measureStart + (jsRound ((n.beat - 1) * ticksPerBeat) : ℚ)
    durationTicks := (jsRound (n.durationBeats * ticksPerBeat) : ℚ)
    midi := midiNum
    velocity := n.velocity.getD 80 / 127 }

/-- The `added.push(...)` record: the reported `velocity` is
`velocity || 80`, so an explicit 0 is also reported as 80. -/
def mkAddedNote (n : NoteInput) (midiNum : ℤ) : AddedNote :=
  { name := n.noteName
    midi := midiNum
    measure := n.measure
    beat := n.beat
    durationBeats := n.durationBeats
    velocity :=
      match n.velocity with
      | some v => if v = 0 then 80 else v
      | none => 80 }

/-- The `{ trackIndex, added, totalNotesInTrack }` result of `addNotes`. -/
structure AddResult where
  trackIndex : ℕ
  added : List AddedNote
  totalNotesInTrack : ℕ
deriving DecidableEq

/-- The `for (const n of notes)` loop of `addNotes`.  Each iteration
parses the pitch name and, on success, appends the converted note to the
track (the library's `track.addNote`; only the note multiset matters to
the properties below).  A parse failure throws, leaving the notes already
added in place: the pair's second component is `none` and the first is the
track as mutated so far.  The tick conversion preceding the parse in the
source is pure, so performing the parse first is observationally
identical. -/
def addNotesGo (m : Midi) : Track → List NoteInput → List AddedNote →
    Track × Option (List AddedNote)
  | track, [], acc => (track, some acc.reverse)
  | track, n :: rest, acc =>
    match noteNameToMidi n.noteName with
    | none => (track, none)
    | some midiNum =>
      addNotesGo m ⟨track.notes ++ [convertNote m n midiNum]⟩ rest (mkAddedNote n midiNum :: acc)

/-- `addNotes(alias, trackIndex, notes)`.  The returned triple is the
document after the call (the source mutates in place, so a thrown error
leaves the partially extended track behind), whether `entry.dirty` was set
(the source sets it only after the loop finishes), and the result
(`none` models a thrown error). -/
def addNotes (m : Midi) (trackIndex : ℕ) (notes : List NoteInput) :
    Midi × Bool × Option AddResult :=
  match m.tracks[trackIndex]? with
  | none => (m, false, none)
  | some track =>
    match addNotesGo m track notes [] with
    | (track2, none) => ({ m with tracks := m.tracks.set trackIndex track2 }, false, none)
    | (track2, some added) =>
      ({ m with tracks := m.tracks.set trackIndex track2 }, true,
        some ⟨trackIndex, added, track2.notes.length⟩)

/-- The `{ trackIndex, removedCount, remainingNotes }` result of
`deleteNotes`. -/
structure DeleteResult where
  trackIndex : ℕ
  removedCount : ℕ
  remainingNotes : ℕ
deriving DecidableEq

/-- The filter predicate of `deleteNotes` (`true` keeps the note):
keep when the onset is outside `[start, stop)`, or below `pitchMin`, or
above `pitchMax`. -/
def deleteKeep (start stop : ℚ) (pitchMin pitchMax : Option ℤ) (n : Note) : Bool :=
  if n.ticks < start ∨ stop ≤ n.ticks then true
  else if (match pitchMin with | some p => decide (n.midi < p) | none => false) then true
  else if (match pitchMax with | some p => decide (p < n.midi) | none => false) then true
  else false

/-- `deleteNotes(alias, trackIndex, measureStart, measureEnd, opts)`:
resolve `[measureStart.start, measureEnd.end)` and filter the track;
`none` models the thrown error for a missing track. -/
def deleteNotes (m : Midi) (trackIndex measureStart measureEnd : ℕ)
    (pitchMin pitchMax : Option ℤ) : Option (Midi × DeleteResult) :=
  match m.tracks[trackIndex]? with
  | none => none
  | some track =>
    let start := (measureToTicks m measureStart).start
    let stop := (measureToTicks m measureEnd).stop
    let notes2 := track.notes.filter (deleteKeep start stop pitchMin pitchMax)
    some ({ m with tracks := m.tracks.set trackIndex ⟨notes2⟩ },
      ⟨trackIndex, track.notes.length - notes2.length, notes2.length⟩)

/-- Resolution of the optional measure range shared by `transposeNotes`
and `quantizeNotes`: `start = 0` / `end = Infinity` when absent
(`Infinity` is modelled by `none`). -/
def resolveRange (m : Midi) (measureStart measureEnd : Option ℕ) : ℚ × Option ℚ :=
  ((match measureStart with
    | none => 0
    | some ms => (measureToTicks m ms).start),
   (match measureEnd with
    | none => none
    | some me => some (measureToTicks m me).stop))

/-- The range test `note.ticks >= start && note.ticks < end`. -/
def inTickRange (start : ℚ) (stop : Option ℚ) (t : ℚ) : Bool :=
  decide (start ≤ t) &&
    (match stop with
     | none => true
     | some e => decide (t < e))

/-- Per-note effect of `transposeNotes`:
`note.midi = Math.max(0, Math.min(127, note.midi + semitones))` on notes
in range. -/
def transposeMap (semitones : ℤ) (start : ℚ) (stop : Option ℚ) (n : Note) : Note :=
  if inTickRange start stop n.ticks then
    { n with midi := max 0 (min 127 (n.midi + semitones)) }
  else n

/-- `transposeNotes(alias, trackIndex, semitones, measureStart,
measureEnd)`; the returned `ℕ` is the reported `transposedCount`. -/
def transposeNotes (m : Midi) (trackIndex : ℕ) (semitones : ℤ)
    (measureStart measureEnd : Option ℕ) : Option (Midi × ℕ) :=
  match m.tracks[trackIndex]? with
  | none => none
  | some track =>
    let r := resolveRange m measureStart measureEnd
    some ({ m with
        tracks := m.tracks.set trackIndex ⟨track.notes.map (transposeMap semitones r.1 r.2)⟩ },
      track.notes.countP fun n => inTickRange r.1 r.2 n.ticks)

/-- Per-note effect of `quantizeNotes`:
`note.ticks = Math.round(note.ticks / gridTicks) * gridTicks` on notes in
range. -/
def quantizeMap (gridTicks : ℤ) (start : ℚ) (stop : Option ℚ) (n : Note) : Note :=
  if inTickRange start stop n.ticks then
    { n with ticks := ((jsRound (n.ticks / (gridTicks : ℚ)) * gridTicks : ℤ) : ℚ) }
  else n

/-- `quantizeNotes(alias, trackIndex, gridBeats, measureStart,
measureEnd)`: `gridTicks = Math.round(ppq * gridBeats)`, failing
(`none`) when the track is missing or `gridTicks <= 0`; the returned `ℕ`
is the reported `quantizedCount`. -/
def quantizeNotes (m : Midi) (trackIndex : ℕ) (gridBeats : ℚ)
    (measureStart measureEnd : Option ℕ) : Option (Midi × ℕ) :=
  match m.tracks[trackIndex]? with
  | none => none
  | some track =>
    let gridTicks := jsRound (m.header.ppq * gridBeats)
    if gridTicks ≤ 0 then none
    else
      let r := resolveRange m measureStart measureEnd
      some ({ m with
          tracks := m.tracks.set trackIndex ⟨track.notes.map (quantizeMap gridTicks r.1 r.2)⟩ },
        track.notes.countP fun n => inTickRange r.1 r.2 n.ticks)

/-- Modelled from the spec (section 8, first testable property): the bpm
of the last tempo event with tick at most `tick`, or 120 when no such
event exists.  Used only to compare the source's `tempoAtTick` against
the spec's words. -/
def specTempoAt (tempos : List TempoEvent) (tick : ℚ) : ℚ :=
  match (tempos.filter fun t => decide (t.ticks ≤ tick)).getLast? with
  | some t => t.bpm
  | none => 120

/-! ### Helper lemmas -/

theorem ratFloor_eq_floor (q : ℚ) : q.floor = ⌊q⌋ :=
  le_antisymm (Int.le_floor.mpr (Rat.le_floor.mp le_rfl)) (Rat.le_floor.mpr (Int.floor_le q))

theorem jsRound_eq (q : ℚ) : jsRound q = ⌊q + 1/2⌋ := by
  rw [jsRound, ratFloor_eq_floor]

theorem jsRound_intCast (k : ℤ) : jsRound (k : ℚ) = k := by
  rw [jsRound_eq, Int.floor_int_add]
  norm_num

/-- The `tempoAtTick` scan computes the last filter survivor (seed on an
empty filter result), provided the event ticks are strictly increasing so
that the early `break` never skips a later event with tick at most
`tick`. -/
theorem tempoScan_eq (tick : ℚ) :
    ∀ (l : List TempoEvent) (bpm : ℚ),
      List.Pairwise (fun a b => a.ticks < b.ticks) l →
      tempoScan tick bpm l =
        match (l.filter fun t => decide (t.ticks ≤ tick)).getLast? with
        | some t => t.bpm
        | none => bpm := by
  intro l
  induction l with
  | nil => intro bpm _; rfl
  | cons t rest ih =>
    intro bpm hp
    have hall := (List.pairwise_cons.mp hp).1
    have hrest := (List.pairwise_cons.mp hp).2
    by_cases h : t.ticks ≤ tick
    · rw [tempoScan, if_pos h, ih t.bpm hrest]
      have hfil : (t :: rest).filter (fun u => decide (u.ticks ≤ tick)) =
          t :: rest.filter (fun u => decide (u.ticks ≤ tick)) := by
        simp [List.filter_cons, h]
      rw [hfil]
      rcases hrf : rest.filter (fun u => decide (u.ticks ≤ tick)) with _ | ⟨x, xs⟩
      · rw [hrf]
        rfl
      · rw [hrf, List.getLast?_cons_cons, List.getLast?_cons]
    · rw [tempoScan, if_neg h]
      have hfil : (t :: rest).filter (fun u => decide (u.ticks ≤ tick)) = [] := by
        rw [List.filter_eq_nil_iff]
        intro a ha
        simp only [decide_eq_true_eq, not_le]
        rcases List.mem_cons.mp ha with rfl | ha2
        · exact not_le.mp h
        · exact lt_trans (not_le.mp h) (hall a ha2)
      rw [hfil]
      rfl

/-- A successfully parsed octave string starts with a minus sign or a
digit — in particular never with an accidental character. -/
theorem parseSignedInt_head {cs : List Char} {oct : ℤ} (h : parseSignedInt cs = some oct) :
    ∃ d ds, cs = d :: ds ∧ (d = '-' ∨ d.isDigit = true) := by
  cases cs with
  | nil => cases h
  | cons d ds =>
    refine ⟨d, ds, rfl, ?_⟩
    by_cases hd : d = '-'
    · exact Or.inl hd
    · right
      rw [parseSignedInt, if_neg hd] at h
      by_cases hall : (d :: ds).all Char.isDigit
      · simp only [List.all_cons, Bool.and_eq_true] at hall
        exact hall.1
      · rw [if_neg hall] at h
        cases h

/-- `takeWhile` of a replicated block followed by a list whose head fails
the predicate is the block itself. -/
theorem takeWhile_replicate_append (p : Char → Bool) (c : Char) (hc : p c = true)
    (k : ℕ) (cs : List Char) (hhd : ∀ d ds, cs = d :: ds → p d = false) :
    (List.replicate k c ++ cs).takeWhile p = List.replicate k c := by
  induction k with
  | zero =>
    cases cs with
    | nil => rfl
    | cons d ds => simp [List.takeWhile_cons, hhd d ds rfl]
  | succ n ih => simp [List.replicate_succ, List.takeWhile_cons, hc, ih]

/-- `drop` of the length of a leading replicated block. -/
theorem drop_replicate_append (k : ℕ) (c : Char) (cs : List Char) :
    (List.replicate k c ++ cs).drop k = cs := by
  have := List.drop_left (List.replicate k c) cs
  rwa [List.length_replicate] at this

/-- A head that is a minus sign or a digit is not an accidental. -/
theorem head_not_accidental {d : Char} (hd : d = '-' ∨ d.isDigit = true) :
    d ≠ '#' ∧ d ≠ 'b' := by
  constructor
  · rintro rfl
    rcases hd with h | h <;> simp_all
  · rintro rfl
    rcases hd with h | h <;> simp_all

/-- The accidental group on a block of at most two sharps followed by the
octave digits. -/
theorem parseAccidentals_sharps (k : ℕ) (hk : k ≤ 2) (cs : List Char)
    (hhd : ∀ d ds, cs = d :: ds → d ≠ '#' ∧ d ≠ 'b') :
    parseAccidentals (List.replicate k '#' ++ cs) = some ((k : ℤ), cs) := by
  have hsh : (List.replicate k '#' ++ cs).takeWhile (fun x => decide (x = '#')) =
      List.replicate k '#' :=
    takeWhile_replicate_append _ _ (by simp) k cs
      (fun d ds h => decide_eq_false (hhd d ds h).1)
  cases k with
  | zero =>
    have hfl : cs.takeWhile (fun x => decide (x = 'b')) = List.replicate 0 'b' :=
      takeWhile_replicate_append _ _ (by simp) 0 cs
        (fun d ds h => decide_eq_false (hhd d ds h).2)
    simp only [List.replicate, List.nil_append] at hsh ⊢
    simp [parseAccidentals, hsh, hfl]
  | succ n =>
    simp [parseAccidentals, hsh, List.length_replicate, hk, drop_replicate_append]

/-- The accidental group on a block of at most two flats followed by the
octave digits. -/
theorem parseAccidentals_flats (k : ℕ) (hk : k ≤ 2) (cs : List Char)
    (hhd : ∀ d ds, cs = d :: ds → d ≠ '#' ∧ d ≠ 'b') :
    parseAccidentals (List.replicate k 'b' ++ cs) = some (-(k : ℤ), cs) := by
  have hfl : (List.replicate k 'b' ++ cs).takeWhile (fun x => decide (x = 'b')) =
      List.replicate k 'b' :=
    takeWhile_replicate_append _ _ (by simp) k cs
      (fun d ds h => decide_eq_false (hhd d ds h).2)
  cases k with
  | zero =>
    have hsh : cs.takeWhile (fun x => decide (x = '#')) = List.replicate 0 '#' :=
      takeWhile_replicate_append _ _ (by simp) 0 cs
        (fun d ds h => decide_eq_false (hhd d ds h).1)
    simp only [List.replicate, List.nil_append] at hfl ⊢
    simp [parseAccidentals, hsh, hfl]
  | succ n =>
    have hsh : (List.replicate (n + 1) 'b' ++ cs).takeWhile (fun x => decide (x = '#')) =
        List.replicate 0 '#' := by
      simp [List.replicate_succ, List.takeWhile_cons]
    simp [parseAccidentals, hsh, hfl, List.length_replicate, hk, drop_replicate_append]

/-- The accidental group fails on three or more repeated sharps (the
leftover accidental characters can never parse as the octave). -/
theorem parseAccidentals_sharps_overflow (j : ℕ) (hj : 2 < j) (cs : List Char)
    (hhd : ∀ d ds, cs = d :: ds → d ≠ '#' ∧ d ≠ 'b') :
    parseAccidentals (List.replicate j '#' ++ cs) = none := by
  have hsh : (List.replicate j '#' ++ cs).takeWhile (fun x => decide (x = '#')) =
      List.replicate j '#' :=
    takeWhile_replicate_append _ _ (by simp) j cs
      (fun d ds h => decide_eq_false (hhd d ds h).1)
  rcases j with _ | n
  · omega
  · simp [parseAccidentals, hsh, List.length_replicate]
    omega

/-! ### C4: pitch-name codec -/

/-- C4 counterexample: the claim says the decoder accepts ZERO OR MORE
accidentals, so `"C###4"` would decode to `(4+1)*12 + 0 + 3 = 63`; the
regex `(#{0,2}|b{0,2})` caps the accidental run at two, so the code
rejects it (while still accepting the two-accidental `"C##4"`). -/
theorem noteNameToMidi_three_sharps_cex :
    noteNameToMidi "C###4" = none ∧ noteNameToMidi "C###4" ≠ some 63 ∧
      noteNameToMidi "C##4" = some 62 := by
  decide

/-- C4 (amended): the decoder accepts a letter `A`-`G` (case-insensitive),
AT MOST TWO `#` or at most two `b` accidentals (not mixed), and a signed
integer octave, returning `(octave+1)*12 + letterBase + accidentalSum`
when that value lies in `[0,127]` and failing otherwise; three or more
repeated accidentals are rejected.  The concrete decodings of the claim
hold, as does the encoding of pitch 60. -/
theorem noteNameToMidi_decode (c : Char) (b : ℤ) (k : ℕ) (oct : ℤ) (cs : List Char)
    (hb : letterBase c = some b) (hk : k ≤ 2) (hcs : parseSignedInt cs = some oct) :
    (noteNameToMidi ⟨c :: (List.replicate k '#' ++ cs)⟩ =
      if (oct + 1) * 12 + b + (k : ℤ) < 0 ∨ 127 < (oct + 1) * 12 + b + (k : ℤ) then none
      else some ((oct + 1) * 12 + b + (k : ℤ))) ∧
    (noteNameToMidi ⟨c :: (List.replicate k 'b' ++ cs)⟩ =
      if (oct + 1) * 12 + b + -(k : ℤ) < 0 ∨ 127 < (oct + 1) * 12 + b + -(k : ℤ) then none
      else some ((oct + 1) * 12 + b + -(k : ℤ))) ∧
    (∀ j : ℕ, 2 < j → noteNameToMidi ⟨c :: (List.replicate j '#' ++ cs)⟩ = none) ∧
    noteNameToMidi "C4" = some 60 ∧ noteNameToMidi "F#3" = some 54 ∧
      noteNameToMidi "Bb5" = some 82 ∧ noteNameToMidi "H2" = none ∧
      midiToNoteName 60 = "C4" := by
  have hhd : ∀ d ds, cs = d :: ds → d ≠ '#' ∧ d ≠ 'b' := by
    intro d ds hdds
    obtain ⟨d2, ds2, he, hor⟩ := parseSignedInt_head hcs
    rw [hdds] at he
    cases he
    exact head_not_accidental hor
  refine ⟨?_, ?_, ?_, by decide, by decide, by decide, by decide, by decide⟩
  · show noteNameToMidi ⟨c :: (List.replicate k '#' ++ cs)⟩ = _
    rw [noteNameToMidi]
    show (match letterBase c with
      | none => none
      | some base => _) = _
    rw [hb]
    simp only [parseAccidentals_sharps k hk cs hhd, hcs]
  · show noteNameToMidi ⟨c :: (List.replicate k 'b' ++ cs)⟩ = _
    rw [noteNameToMidi]
    show (match letterBase c with
      | none => none
      | some base => _) = _
    rw [hb]
    simp only [parseAccidentals_flats k hk cs hhd, hcs]
  · intro j hj
    rw [noteNameToMidi]
    show (match letterBase c with
      | none => none
      | some base => _) = _
    rw [hb]
    simp only [parseAccidentals_sharps_overflow j hj cs hhd]

/-- Witness for `noteNameToMidi_decode`: the letter `F`, one sharp and
octave 3 give pitch 54. -/
theorem noteNameToMidi_decode_witness :
    noteNameToMidi ⟨'F' :: (List.replicate 1 '#' ++ ['3'])⟩ =
      if ((3 : ℤ) + 1) * 12 + 5 + ((1 : ℕ) : ℤ) < 0 ∨
          127 < ((3 : ℤ) + 1) * 12 + 5 + ((1 : ℕ) : ℤ) then none
      else some (((3 : ℤ) + 1) * 12 + 5 + ((1 : ℕ) : ℤ)) :=
  (noteNameToMidi_decode 'F' 5 1 3 ['3'] (by decide) (by decide) (by decide)).1

/-! ### C2: tempoAt lookup -/

/-- The document used to refute C2: a single tempo event strictly after
tick 0. -/
def tempoCexMidi : Midi :=
  { header := { ppq := 480, tempos := [⟨100, 90⟩], timeSignatures := [] }, tracks := [] }

/-- C2 counterexample: with a non-empty tempo list whose every event has
tick greater than the queried tick, the claim says `tempoAt` returns 120;
the code returns the first event's bpm (90 here), as `bpm` is seeded with
`tempos[0].bpm` before the scan. -/
theorem tempoAtTick_before_first_event_cex :
    tempoAtTick tempoCexMidi 0 = 90 ∧ tempoAtTick tempoCexMidi 0 ≠ 120 ∧
      specTempoAt tempoCexMidi.header.tempos 0 = 120 := by
  decide

/-- C2 (amended): for strictly increasing tempo events, `tempoAtTick`
returns 120 when the list is empty; when some event has tick at most `T`
it returns the bpm of the last such event (the spec's step function); but
when the list is non-empty and every event's tick exceeds `T` it returns
the FIRST event's bpm, not 120.  (Stability under repeated queries is
immediate: the function is pure.) -/
theorem tempoAtTick_lookup (m : Midi) (tick : ℚ)
    (hs : List.Pairwise (fun a b => a.ticks < b.ticks) m.header.tempos) :
    (m.header.tempos = [] → tempoAtTick m tick = 120) ∧
    ((∃ t ∈ m.header.tempos, t.ticks ≤ tick) →
      tempoAtTick m tick = specTempoAt m.header.tempos tick) ∧
    (∀ t0 rest, m.header.tempos = t0 :: rest →
      (∀ t ∈ m.header.tempos, tick < t.ticks) → tempoAtTick m tick = t0.bpm) := by
  refine ⟨?_, ?_, ?_⟩
  · intro h
    unfold tempoAtTick
    rw [h]
  · rintro ⟨t, ht, htle⟩
    rcases hl : m.header.tempos with _ | ⟨t0, rest⟩
    · rw [hl] at ht; cases ht
    · unfold tempoAtTick
      rw [hl]
      show tempoScan tick t0.bpm (t0 :: rest) = specTempoAt (t0 :: rest) tick
      rw [tempoScan_eq tick (t0 :: rest) t0.bpm (hl ▸ hs)]
      unfold specTempoAt
      have hmem : t ∈ (t0 :: rest).filter (fun u => decide (u.ticks ≤ tick)) :=
        List.mem_filter.mpr ⟨hl ▸ ht, by simpa using htle⟩
      rcases hfl : (t0 :: rest).filter (fun u => decide (u.ticks ≤ tick)) with _ | ⟨x, xs⟩
      · rw [hfl] at hmem
        cases hmem
      · rw [hfl, List.getLast?_cons]
  · intro t0 rest hl hall
    unfold tempoAtTick
    rw [hl]
    show tempoScan tick t0.bpm (t0 :: rest) = t0.bpm
    rw [tempoScan_eq tick (t0 :: rest) t0.bpm (hl ▸ hs)]
    have hfil : (t0 :: rest).filter (fun u => decide (u.ticks ≤ tick)) = [] := by
      rw [List.filter_eq_nil_iff]
      intro a ha
      simp only [decide_eq_true_eq, not_le]
      exact hall a (hl ▸ ha)
    rw [hfil]
    rfl

/-- The document used to witness C2's amended theorem. -/
def tempoWitnessMidi : Midi :=
  { header := { ppq := 480, tempos := [⟨0, 100⟩, ⟨10, 140⟩], timeSignatures := [] },
    tracks := [] }

/-- Witness for `tempoAtTick_lookup` at a concrete document and tick. -/
theorem tempoAtTick_lookup_witness :
    tempoAtTick tempoWitnessMidi 5 = specTempoAt tempoWitnessMidi.header.tempos 5 :=
  (tempoAtTick_lookup tempoWitnessMidi 5 (by decide)).2.1 ⟨⟨0, 100⟩, by decide, by decide⟩

/-! ### C5: measureToTicks / tickToMeasureBeat agreement -/

/-- The `timeSigAtTick` scan preserves any property that holds of the
seed and of every event in the list. -/
theorem sigScan_prop (P : ℚ × ℚ → Prop) (tick : ℚ) :
    ∀ (l : List TimeSigEvent) (sig : ℚ × ℚ), P sig → (∀ s ∈ l, P (s.num, s.den)) →
      P (sigScan tick sig l) := by
  intro l
  induction l with
  | nil => intro sig hsig _; exact hsig
  | cons s rest ih =>
    intro sig hsig hl
    rw [sigScan]
    by_cases h : s.ticks ≤ tick
    · rw [if_pos h]
      exact ih (s.num, s.den) (hl s (List.mem_cons_self s rest))
        fun u hu => hl u (List.mem_cons_of_mem s hu)
    · rw [if_neg h]
      exact hsig

/-- With positive numerators and denominators in every time-signature
event, the signature in effect at any tick is positive (the default `4/4`
included). -/
theorem timeSigAtTick_pos (m : Midi)
    (hsig : ∀ s ∈ m.header.timeSignatures, 0 < s.num ∧ 0 < s.den) (t : ℚ) :
    0 < (timeSigAtTick m t).1 ∧ 0 < (timeSigAtTick m t).2 := by
  rcases hl : m.header.timeSignatures with _ | ⟨s0, rest⟩
  · unfold timeSigAtTick
    rw [hl]
    show (0 : ℚ) < 4 ∧ (0 : ℚ) < 4
    norm_num
  · unfold timeSigAtTick
    rw [hl]
    show 0 < (sigScan t (s0.num, s0.den) (s0 :: rest)).1 ∧
      0 < (sigScan t (s0.num, s0.den) (s0 :: rest)).2
    exact sigScan_prop (fun p => 0 < p.1 ∧ 0 < p.2) t (s0 :: rest) (s0.num, s0.den)
      (hsig s0 (hl ▸ List.mem_cons_self s0 rest)) fun s hs => hsig s (hl ▸ hs)

/-- Positive ppq and positive signatures give a positive measure length
at every tick. -/
theorem ticksPerMeasure_pos (m : Midi) (hppq : 0 < m.header.ppq)
    (hsig : ∀ s ∈ m.header.timeSignatures, 0 < s.num ∧ 0 < s.den) (t : ℚ) :
    0 < ticksPerMeasure m t := by
  obtain ⟨h1, h2⟩ := timeSigAtTick_pos m hsig t
  exact mul_pos (mul_pos hppq h1) (div_pos (by norm_num) h2)

/-- The forward walk never moves backwards when every measure has
nonnegative length. -/
theorem le_measureWalk (m : Midi) (htpm : ∀ t, 0 < ticksPerMeasure m t) :
    ∀ (k : ℕ) (t : ℚ), t ≤ measureWalk m k t := by
  intro k
  induction k with
  | zero => intro t; exact le_refl t
  | succ n ih =>
    intro t
    rw [measureWalk]
    exact le_trans (by linarith [htpm t]) (ih (t + ticksPerMeasure m t))

/-- Walking `k` measures forward with `measureWalk` and then locating the
resulting tick with the `tickToMeasureBeat` walk lands exactly on measure
`meas + k`, beat 1 (both walks accumulate the identical tick sequence). -/
theorem tickToMeasureBeatAux_measureWalk (m : Midi) (htpm : ∀ t, 0 < ticksPerMeasure m t) :
    ∀ (k : ℕ) (t : ℚ) (meas : ℕ),
      tickToMeasureBeatAux m (measureWalk m k t) (k + 1) t meas = some ⟨meas + k, 1⟩ := by
  intro k
  induction k with
  | zero =>
    intro t meas
    rw [measureWalk, tickToMeasureBeatAux,
      if_pos (show t < t + ticksPerMeasure m t by linarith [htpm t])]
    simp
  | succ n ih =>
    intro t meas
    rw [measureWalk, tickToMeasureBeatAux, if_neg]
    · rw [ih (t + ticksPerMeasure m t) (meas + 1)]
      have : meas + 1 + n = meas + (n + 1) := by omega
      rw [this]
    · exact not_lt.mpr (le_measureWalk m htpm n (t + ticksPerMeasure m t))

/-- C5: for every measure number at least 1, positive ppq and positive
time-signature events, `tickToMeasureBeat` applied to the start tick from
`measureToTicks` yields exactly that measure and beat 1 (fuel `measure`
suffices for the walk). -/
theorem tickToMeasureBeat_measureToTicks_start (m : Midi) (measure : ℕ)
    (hm : 1 ≤ measure) (hppq : 0 < m.header.ppq)
    (hsig : ∀ s ∈ m.header.timeSignatures, 0 < s.num ∧ 0 < s.den) :
    tickToMeasureBeat m (measureToTicks m measure).start measure = some ⟨measure, 1⟩ := by
  have htpm := ticksPerMeasure_pos m hppq hsig
  obtain ⟨k, rfl⟩ : ∃ k, measure = k + 1 := ⟨measure - 1, by omega⟩
  have key := tickToMeasureBeatAux_measureWalk m htpm k 0 1
  unfold tickToMeasureBeat measureToTicks
  show tickToMeasureBeatAux m (measureWalk m (k + 1 - 1) 0) (k + 1) 0 1 = some ⟨k + 1, 1⟩
  rw [show k + 1 - 1 = k from rfl, key]
  have : 1 + k = k + 1 := by omega
  rw [this]

/-- The `3/4` document used to witness C5. -/
def walkWitnessMidi : Midi :=
  { header := { ppq := 480, tempos := [], timeSignatures := [⟨0, 3, 4⟩] }, tracks := [] }

/-- Witness for `tickToMeasureBeat_measureToTicks_start` at measure 3 of
a `3/4` document. -/
theorem tickToMeasureBeat_measureToTicks_start_witness :
    tickToMeasureBeat walkWitnessMidi (measureToTicks walkWitnessMidi 3).start 3 =
      some ⟨3, 1⟩ :=
  tickToMeasureBeat_measureToTicks_start walkWitnessMidi 3 (by decide) (by decide) (by decide)

/-! ### Header-only dependence of the coordinate converter -/

theorem ticksPerMeasure_tracks (h : MidiHeader) (tr1 tr2 : List Track) (t : ℚ) :
    ticksPerMeasure ⟨h, tr1⟩ t = ticksPerMeasure ⟨h, tr2⟩ t := rfl

theorem measureWalk_tracks (h : MidiHeader) (tr1 tr2 : List Track) :
    ∀ (k : ℕ) (t : ℚ), measureWalk ⟨h, tr1⟩ k t = measureWalk ⟨h, tr2⟩ k t := by
  intro k
  induction k with
  | zero => intro t; rfl
  | succ n ih =>
    intro t
    rw [measureWalk, measureWalk]
    exact ih (t + ticksPerMeasure ⟨h, tr1⟩ t)

theorem measureToTicks_tracks (h : MidiHeader) (tr1 tr2 : List Track) (mm : ℕ) :
    measureToTicks ⟨h, tr1⟩ mm = measureToTicks ⟨h, tr2⟩ mm := by
  unfold measureToTicks
  rw [measureWalk_tracks h tr1 tr2]
  rfl

theorem resolveRange_tracks (h : MidiHeader) (tr1 tr2 : List Track) (ms me : Option ℕ) :
    resolveRange ⟨h, tr1⟩ ms me = resolveRange ⟨h, tr2⟩ ms me := by
  unfold resolveRange
  cases ms <;> cases me <;> simp [measureToTicks_tracks h tr1 tr2]

/-- Setting an index of a list to the element it already holds is the
identity. -/
theorem set_getElem_self {α : Type} (l : List α) (i : ℕ) (x : α) (h : l[i]? = some x) :
    l.set i x = l := by
  apply List.ext_getElem?
  intro j
  rw [List.getElem?_set]
  by_cases hij : i = j
  · subst hij
    obtain ⟨hlt, _⟩ := List.getElem?_eq_some_iff.mp h
    simp [hlt, h]
  · simp [hij]

/-! ### C6: quantize idempotence -/

/-- Dividing a multiple of `g` back by `g` and rounding recovers the
multiplier. -/
theorem jsRound_mul_div_self (r g : ℤ) (hg : g ≠ 0) :
    jsRound (((r * g : ℤ) : ℚ) / (g : ℚ)) = r := by
  have hq : ((r * g : ℤ) : ℚ) / (g : ℚ) = (r : ℚ) := by
    push_cast
    field_simp
  rw [hq, jsRound_intCast]

/-- A note whose onset is already a multiple of `gridTicks` is a fixed
point of the per-note quantize step (whether or not it is in range). -/
theorem quantizeMap_multiple_fixed (g : ℤ) (hg : g ≠ 0) (start : ℚ) (stop : Option ℚ)
    (n : Note) (k : ℤ) (ht : n.ticks = ((k * g : ℤ) : ℚ)) :
    quantizeMap g start stop n = n := by
  unfold quantizeMap
  by_cases h : inTickRange start stop n.ticks
  · rw [if_pos h]
    have : ((jsRound (n.ticks / (g : ℚ)) * g : ℤ) : ℚ) = n.ticks := by
      rw [ht, jsRound_mul_div_self k g hg]
    rw [this]
  · rw [if_neg h]

/-- The per-note quantize step is idempotent. -/
theorem quantizeMap_idem (g : ℤ) (hg : g ≠ 0) (start : ℚ) (stop : Option ℚ) (n : Note) :
    quantizeMap g start stop (quantizeMap g start stop n) = quantizeMap g start stop n := by
  by_cases h : inTickRange start stop n.ticks
  · have hstep : quantizeMap g start stop n =
        { n with ticks := ((jsRound (n.ticks / (g : ℚ)) * g : ℤ) : ℚ) } := by
      unfold quantizeMap
      rw [if_pos h]
    rw [hstep]
    exact quantizeMap_multiple_fixed g hg start stop _ (jsRound (n.ticks / (g : ℚ))) rfl
  · have hstep : quantizeMap g start stop n = n := by
      unfold quantizeMap
      rw [if_neg h]
    rw [hstep, hstep]

/-- Unfolding one successful `quantizeNotes` call. -/
theorem quantizeNotes_call (m : Midi) (ti : ℕ) (gridBeats : ℚ) (ms me : Option ℕ)
    (track : Track) (htk : m.tracks[ti]? = some track)
    (hg : 0 < jsRound (m.header.ppq * gridBeats)) :
    quantizeNotes m ti gridBeats ms me = some
      ({ m with tracks := m.tracks.set ti ⟨track.notes.map
          (quantizeMap (jsRound (m.header.ppq * gridBeats)) (resolveRange m ms me).1
            (resolveRange m ms me).2)⟩ },
        track.notes.countP fun n => inTickRange (resolveRange m ms me).1
          (resolveRange m ms me).2 n.ticks) := by
  unfold quantizeNotes
  rw [htk]
  dsimp only
  rw [if_neg (not_le.mpr hg)]

/-- C6: with an existing track and positive `gridTicks`, `quantize` is
idempotent: the first call succeeds, and re-applying it with the same
arguments returns the same document (hence every onset tick equals what a
single application produces).  The first conjunct is the snapping rule
behind it: an onset that is already a multiple of `gridTicks` is a fixed
point of the per-note step. -/
theorem quantizeNotes_idempotent (m : Midi) (ti : ℕ) (gridBeats : ℚ) (ms me : Option ℕ)
    (htr : ti < m.tracks.length) (hg : 0 < jsRound (m.header.ppq * gridBeats)) :
    (∀ (start : ℚ) (stop : Option ℚ) (n : Note) (k : ℤ),
      n.ticks = ((k * jsRound (m.header.ppq * gridBeats) : ℤ) : ℚ) →
      quantizeMap (jsRound (m.header.ppq * gridBeats)) start stop n = n) ∧
    ∃ m1 c1 c2, quantizeNotes m ti gridBeats ms me = some (m1, c1) ∧
      quantizeNotes m1 ti gridBeats ms me = some (m1, c2) := by
  have hgne : jsRound (m.header.ppq * gridBeats) ≠ 0 := ne_of_gt hg
  refine ⟨fun start stop n k ht => quantizeMap_multiple_fixed _ hgne start stop n k ht, ?_⟩
  rcases htk : m.tracks[ti]? with _ | track
  · rw [List.getElem?_eq_none_iff] at htk
    omega
  · have h1 := quantizeNotes_call m ti gridBeats ms me track htk hg
    have htk2 : ({ m with tracks := m.tracks.set ti ⟨track.notes.map
        (quantizeMap (jsRound (m.header.ppq * gridBeats)) (resolveRange m ms me).1
          (resolveRange m ms me).2)⟩ } : Midi).tracks[ti]? = some ⟨track.notes.map
        (quantizeMap (jsRound (m.header.ppq * gridBeats)) (resolveRange m ms me).1
          (resolveRange m ms me).2)⟩ := by
      show (m.tracks.set ti _)[ti]? = _
      rw [List.getElem?_set]
      simp [htr]
    have h2 := quantizeNotes_call _ ti gridBeats ms me _ htk2 hg
    have hrr : resolveRange ({ m with tracks := m.tracks.set ti ⟨track.notes.map
        (quantizeMap (jsRound (m.header.ppq * gridBeats)) (resolveRange m ms me).1
          (resolveRange m ms me).2)⟩ } : Midi) ms me = resolveRange m ms me := by
      have h := resolveRange_tracks m.header (m.tracks.set ti ⟨track.notes.map
        (quantizeMap (jsRound (m.header.ppq * gridBeats)) (resolveRange m ms me).1
          (resolveRange m ms me).2)⟩) m.tracks ms me
      exact h
    rw [hrr] at h2
    dsimp only at h2
    rw [List.map_map] at h2
    have hidem : track.notes.map
        ((quantizeMap (jsRound (m.header.ppq * gridBeats)) (resolveRange m ms me).1
          (resolveRange m ms me).2) ∘
         (quantizeMap (jsRound (m.header.ppq * gridBeats)) (resolveRange m ms me).1
          (resolveRange m ms me).2)) =
        track.notes.map (quantizeMap (jsRound (m.header.ppq * gridBeats))
          (resolveRange m ms me).1 (resolveRange m ms me).2) :=
      List.map_congr_left fun n _ => quantizeMap_idem _ hgne _ _ n
    rw [hidem, List.set_set] at h2
    exact ⟨_, _, _, h1, h2⟩

/-- Evaluation helper: the grid of one beat at ppq 480. -/
theorem jsRound_480 : jsRound ((480 : ℚ) * 1) = 480 := by
  rw [mul_one, show (480 : ℚ) = ((480 : ℤ) : ℚ) from by norm_num, jsRound_intCast]

/-- The document used to witness C6 and C9. -/
def editWitnessMidi : Midi :=
  { header := { ppq := 480, tempos := [], timeSignatures := [] },
    tracks := [⟨[⟨100, 10, 60, 1⟩]⟩] }

/-- Witness for `quantizeNotes_idempotent`: quantizing track 0 of a
concrete document to a one-beat grid twice returns the same document. -/
theorem quantizeNotes_idempotent_witness :
    ∃ m1 c1 c2, quantizeNotes editWitnessMidi 0 1 none none = some (m1, c1) ∧
      quantizeNotes m1 0 1 none none = some (m1, c2) :=
  (quantizeNotes_idempotent editWitnessMidi 0 1 none none (by decide)
    (by show (0 : ℤ) < jsRound ((480 : ℚ) * 1); rw [jsRound_480]; decide)).2

/-! ### C9: transpose round-trip -/

/-- Unfolding one successful `transposeNotes` call. -/
theorem transposeNotes_call (m : Midi) (ti : ℕ) (s : ℤ) (ms me : Option ℕ)
    (track : Track) (htk : m.tracks[ti]? = some track) :
    transposeNotes m ti s ms me = some
      ({ m with tracks := m.tracks.set ti ⟨track.notes.map
          (transposeMap s (resolveRange m ms me).1 (resolveRange m ms me).2)⟩ },
        track.notes.countP fun n => inTickRange (resolveRange m ms me).1
          (resolveRange m ms me).2 n.ticks) := by
  unfold transposeNotes
  rw [htk]

/-- Per-note effect of `+12` then `-12`: a pitch that cannot clamp in
either pass is restored exactly (out-of-range notes are untouched by both
passes). -/
theorem transposeMap_up_down (start : ℚ) (stop : Option ℚ) (n : Note)
    (h0 : 0 ≤ n.midi) (h127 : n.midi + 12 ≤ 127) :
    transposeMap (-12) start stop (transposeMap 12 start stop n) = n := by
  by_cases h : inTickRange start stop n.ticks
  · have hstep : transposeMap 12 start stop n = { n with midi := n.midi + 12 } := by
      unfold transposeMap
      rw [if_pos h]
      rw [min_eq_right (by omega), max_eq_right (by omega)]
    rw [hstep]
    unfold transposeMap
    rw [if_pos h]
    dsimp only
    rw [show n.midi + 12 + -12 = n.midi by omega]
    rw [min_eq_right (by omega), max_eq_right h0]
  · have hstep : transposeMap 12 start stop n = n := by
      unfold transposeMap
      rw [if_neg h]
    rw [hstep]
    unfold transposeMap
    rw [if_neg h]

/-- C9: `transpose` sets each in-range note's pitch to the clamped
`pitch + semitones` (the document after `+12` holds exactly the mapped
notes), and `+12` followed by `-12` over the same range restores every
note whose pitch could not clamp in either pass. -/
theorem transposeNotes_roundTrip (m : Midi) (ti : ℕ) (ms me : Option ℕ) (track : Track)
    (htk : m.tracks[ti]? = some track) :
    ∃ m1 c1 m2 c2,
      transposeNotes m ti 12 ms me = some (m1, c1) ∧
      transposeNotes m1 ti (-12) ms me = some (m2, c2) ∧
      m1.tracks[ti]? = some ⟨track.notes.map
        (transposeMap 12 (resolveRange m ms me).1 (resolveRange m ms me).2)⟩ ∧
      m2.tracks[ti]? = some ⟨track.notes.map
        ((transposeMap (-12) (resolveRange m ms me).1 (resolveRange m ms me).2) ∘
         (transposeMap 12 (resolveRange m ms me).1 (resolveRange m ms me).2))⟩ ∧
      ∀ n : Note, 0 ≤ n.midi → n.midi + 12 ≤ 127 →
        transposeMap (-12) (resolveRange m ms me).1 (resolveRange m ms me).2
          (transposeMap 12 (resolveRange m ms me).1 (resolveRange m ms me).2 n) = n := by
  have htr : ti < m.tracks.length := (List.getElem?_eq_some_iff.mp htk).1
  have h1 := transposeNotes_call m ti 12 ms me track htk
  have htk2 : ({ m with tracks := m.tracks.set ti ⟨track.notes.map
      (transposeMap 12 (resolveRange m ms me).1
        (resolveRange m ms me).2)⟩ } : Midi).tracks[ti]? = some ⟨track.notes.map
      (transposeMap 12 (resolveRange m ms me).1 (resolveRange m ms me).2)⟩ := by
    show (m.tracks.set ti _)[ti]? = _
    rw [List.getElem?_set]
    simp [htr]
  have h2 := transposeNotes_call _ ti (-12) ms me _ htk2
  have hrr : resolveRange ({ m with tracks := m.tracks.set ti ⟨track.notes.map
      (transposeMap 12 (resolveRange m ms me).1
        (resolveRange m ms me).2)⟩ } : Midi) ms me = resolveRange m ms me := by
    have h := resolveRange_tracks m.header (m.tracks.set ti ⟨track.notes.map
      (transposeMap 12 (resolveRange m ms me).1
        (resolveRange m ms me).2)⟩) m.tracks ms me
    exact h
  rw [hrr] at h2
  dsimp only at h2
  rw [List.map_map] at h2
  refine ⟨_, _, _, _, h1, h2, htk2, ?_, ?_⟩
  · show ((m.tracks.set ti _).set ti _)[ti]? = _
    rw [List.set_set, List.getElem?_set]
    simp [htr]
  · intro n h0 h127
    exact transposeMap_up_down _ _ n h0 h127

/-- Witness for `transposeNotes_roundTrip`: pitch 60 at onset 100 is
restored by `+12` then `-12`. -/
theorem transposeNotes_roundTrip_witness :
    transposeMap (-12) (resolveRange editWitnessMidi none none).1
      (resolveRange editWitnessMidi none none).2
      (transposeMap 12 (resolveRange editWitnessMidi none none).1
        (resolveRange editWitnessMidi none none).2 ⟨100, 10, 60, 1⟩) = ⟨100, 10, 60, 1⟩ := by
  obtain ⟨m1, c1, m2, c2, h1, h2, h3, h4, h5⟩ :=
    transposeNotes_roundTrip editWitnessMidi 0 none none ⟨[⟨100, 10, 60, 1⟩]⟩ (by decide)
  exact h5 ⟨100, 10, 60, 1⟩ (by decide) (by decide)

/-! ### C8: delete by onset interval and pitch range -/

/-- The claim's pitch-range membership test (inclusive optional bounds). -/
def pitchInRange (pitchMin pitchMax : Option ℤ) (n : Note) : Bool :=
  (match pitchMin with | some p => decide (p ≤ n.midi) | none => true) &&
  (match pitchMax with | some p => decide (n.midi ≤ p) | none => true)

/-- The code's keep predicate discards exactly the notes whose onset lies
in `[start, stop)` and whose pitch lies in the optional pitch range; in
particular a note with onset before `start` (for example one sustaining
into the window) is always kept. -/
theorem deleteKeep_false_iff (start stop : ℚ) (pMin pMax : Option ℤ) (n : Note) :
    deleteKeep start stop pMin pMax n = false ↔
      (start ≤ n.ticks ∧ n.ticks < stop ∧ pitchInRange pMin pMax n = true) := by
  unfold deleteKeep
  by_cases h1 : n.ticks < start ∨ stop ≤ n.ticks
  · rw [if_pos h1]
    simp only [Bool.true_eq_false, false_iff]
    rintro ⟨ha, hb, _⟩
    rcases h1 with h | h
    · exact absurd ha (not_le.mpr h)
    · exact absurd hb (not_lt.mpr h)
  · rw [if_neg h1]
    push_neg at h1
    by_cases h2 : (match pMin with | some p => decide (n.midi < p) | none => false) = true
    · rw [if_pos h2]
      simp only [Bool.true_eq_false, false_iff]
      rintro ⟨_, _, hpr⟩
      rcases pMin with _ | p
      · simp at h2
      · simp only [decide_eq_true_eq] at h2
        unfold pitchInRange at hpr
        simp only [Bool.and_eq_true, decide_eq_true_eq] at hpr
        omega
    · rw [if_neg h2]
      by_cases h3 : (match pMax with | some p => decide (p < n.midi) | none => false) = true
      · rw [if_pos h3]
        simp only [Bool.true_eq_false, false_iff]
        rintro ⟨_, _, hpr⟩
        rcases pMax with _ | q
        · simp at h3
        · simp only [decide_eq_true_eq] at h3
          unfold pitchInRange at hpr
          simp only [Bool.and_eq_true, decide_eq_true_eq] at hpr
          omega
      · rw [if_neg h3]
        refine ⟨fun _ => ⟨h1.1, h1.2, ?_⟩, fun _ => rfl⟩
        unfold pitchInRange
        rcases pMin with _ | p <;> rcases pMax with _ | q
        · rfl
        · simp only [Bool.true_and, decide_eq_true_eq]
          simp only [decide_eq_true_eq] at h3
          omega
        · simp only [Bool.and_true, decide_eq_true_eq]
          simp only [decide_eq_true_eq] at h2
          omega
        · simp only [Bool.and_eq_true, decide_eq_true_eq]
          simp only [decide_eq_true_eq] at h2 h3
          omega

/-- Unfolding one successful `deleteNotes` call. -/
theorem deleteNotes_call (m : Midi) (ti mS mE : ℕ) (pMin pMax : Option ℤ)
    (track : Track) (htk : m.tracks[ti]? = some track) :
    deleteNotes m ti mS mE pMin pMax = some
      ({ m with tracks := m.tracks.set ti ⟨track.notes.filter
          (deleteKeep (measureToTicks m mS).start (measureToTicks m mE).stop pMin pMax)⟩ },
        ⟨ti, track.notes.length - (track.notes.filter
            (deleteKeep (measureToTicks m mS).start (measureToTicks m mE).stop pMin pMax)).length,
          (track.notes.filter (deleteKeep (measureToTicks m mS).start
            (measureToTicks m mE).stop pMin pMax)).length⟩) := by
  unfold deleteNotes
  rw [htk]

/-- C8: `delete` succeeds on an existing track; the surviving notes are
exactly the original notes passing the keep predicate (every other note
is carried over verbatim); the keep predicate discards exactly the notes
with onset in the resolved `[start, stop)` and pitch in the optional
range; removed plus remaining counts equal the note count before the
call; and a range containing no onsets removes nothing. -/
theorem deleteNotes_spec (m : Midi) (ti mS mE : ℕ) (pMin pMax : Option ℤ) (track : Track)
    (htk : m.tracks[ti]? = some track) :
    ∃ m2 res,
      deleteNotes m ti mS mE pMin pMax = some (m2, res) ∧
      m2.tracks[ti]? = some ⟨track.notes.filter
        (deleteKeep (measureToTicks m mS).start (measureToTicks m mE).stop pMin pMax)⟩ ∧
      (∀ n : Note,
        deleteKeep (measureToTicks m mS).start (measureToTicks m mE).stop pMin pMax n = false ↔
        ((measureToTicks m mS).start ≤ n.ticks ∧ n.ticks < (measureToTicks m mE).stop ∧
          pitchInRange pMin pMax n = true)) ∧
      res.removedCount + res.remainingNotes = track.notes.length ∧
      ((∀ n ∈ track.notes, ¬((measureToTicks m mS).start ≤ n.ticks ∧
          n.ticks < (measureToTicks m mE).stop)) → res.removedCount = 0) := by
  have htr : ti < m.tracks.length := (List.getElem?_eq_some_iff.mp htk).1
  have h1 := deleteNotes_call m ti mS mE pMin pMax track htk
  refine ⟨_, _, h1, ?_, fun n => deleteKeep_false_iff _ _ _ _ n, ?_, ?_⟩
  · show (m.tracks.set ti _)[ti]? = _
    rw [List.getElem?_set]
    simp [htr]
  · have hle := List.length_filter_le
      (deleteKeep (measureToTicks m mS).start (measureToTicks m mE).stop pMin pMax) track.notes
    dsimp only
    omega
  · intro hall
    have hfe : track.notes.filter
        (deleteKeep (measureToTicks m mS).start (measureToTicks m mE).stop pMin pMax) =
        track.notes := by
      rw [List.filter_eq_self]
      intro a ha
      by_contra hfalse
      have hf2 : deleteKeep (measureToTicks m mS).start (measureToTicks m mE).stop
          pMin pMax a = false := by
        revert hfalse
        cases deleteKeep (measureToTicks m mS).start (measureToTicks m mE).stop pMin pMax a <;>
          simp
      obtain ⟨hx, hy, _⟩ := (deleteKeep_false_iff _ _ _ _ a).mp hf2
      exact hall a ha ⟨hx, hy⟩
    show track.notes.length - (track.notes.filter
      (deleteKeep (measureToTicks m mS).start (measureToTicks m mE).stop pMin pMax)).length = 0
    rw [hfe]
    omega

/-- Witness for `deleteNotes_spec` on a concrete document. -/
theorem deleteNotes_spec_witness : (deleteNotes editWitnessMidi 0 1 1 none none).isSome := by
  obtain ⟨m2, res, h1, _⟩ :=
    deleteNotes_spec editWitnessMidi 0 1 1 none none ⟨[⟨100, 10, 60, 1⟩]⟩ (by decide)
  rw [h1]
  rfl

/-! ### C7: search ordering, truncation and count -/

/-- The empty document and empty option set used by witnesses. -/
def emptyMidi : Midi :=
  { header := { ppq := 480, tempos := [], timeSignatures := [] }, tracks := [] }

/-- All-default search options. -/
def emptyOpts : SearchOpts := {}

/-- C7: whenever `searchNotes` returns, its `notes` are sorted by the
`(measure, beat, pitch)` order, they are the first 200 entries of the
sorted match list, the reported `count` is the full pre-truncation match
count, the returned length is `min 200 count`, and with more than 200
matches the count strictly exceeds the returned length. -/
theorem searchNotes_sorted_truncated (m : Midi) (o : SearchOpts) (fuel : ℕ)
    (r : SearchResult) (h : searchNotes m o fuel = some r) :
    List.Pairwise srnLE r.notes ∧
    (∃ found, collectMatches m o fuel (scanPairs m o) = some found ∧
      r.count = found.length ∧
      r.notes = (List.insertionSort srnLE found).take 200) ∧
    r.notes.length = min 200 r.count ∧
    (200 < r.count → r.notes.length < r.count) := by
  unfold searchNotes at h
  rcases hcm : collectMatches m o fuel (scanPairs m o) with _ | found
  · rw [hcm] at h
    cases h
  · rw [hcm] at h
    dsimp only at h
    have hr := Option.some.inj h
    subst hr
    have hsorted : List.Pairwise srnLE (List.insertionSort srnLE found) :=
      List.sorted_insertionSort srnLE found
    have hlen : (List.insertionSort srnLE found).length = found.length :=
      (List.perm_insertionSort srnLE found).length_eq
    refine ⟨List.Pairwise.sublist (List.take_sublist 200 _) hsorted,
      ⟨found, rfl, hlen, rfl⟩, ?_, ?_⟩
    · show ((List.insertionSort srnLE found).take 200).length =
        min 200 (List.insertionSort srnLE found).length
      rw [List.length_take]
    · intro hgt
      dsimp only at hgt
      rw [hlen] at hgt
      show ((List.insertionSort srnLE found).take 200).length <
        (List.insertionSort srnLE found).length
      rw [List.length_take, hlen]
      omega

/-- Witness for `searchNotes_sorted_truncated` on the empty document. -/
theorem searchNotes_sorted_truncated_witness :
    List.Pairwise srnLE (SearchResult.mk 0 []).notes ∧
      (SearchResult.mk 0 []).notes.length = min 200 (SearchResult.mk 0 []).count := by
  obtain ⟨h1, _, h3, _⟩ := searchNotes_sorted_truncated emptyMidi emptyOpts 0 ⟨0, []⟩ rfl
  exact ⟨h1, h3⟩

/-! ### C1: addNotes is not atomic -/

/-- Running the `addNotes` loop on a batch whose prefix parses and whose
next note has an invalid pitch name: the loop throws at the invalid note,
but the prefix notes have already been appended to the track. -/
theorem addNotesGo_partial (m : Midi) (bad : NoteInput)
    (hbad : noteNameToMidi bad.noteName = none) (rest : List NoteInput) :
    ∀ (pre : List NoteInput) (track : Track) (acc : List AddedNote),
      (∀ n ∈ pre, (noteNameToMidi n.noteName).isSome) →
      ∃ track2 : Track, addNotesGo m track (pre ++ bad :: rest) acc = (track2, none) ∧
        track2.notes.length = track.notes.length + pre.length := by
  intro pre
  induction pre with
  | nil =>
    intro track acc _
    refine ⟨track, ?_, by simp⟩
    show addNotesGo m track (bad :: rest) acc = (track, none)
    unfold addNotesGo
    rw [hbad]
  | cons n pre2 ih =>
    intro track acc hpre
    have hn : (noteNameToMidi n.noteName).isSome := hpre n (List.mem_cons_self n pre2)
    rcases hmn : noteNameToMidi n.noteName with _ | midiNum
    · rw [hmn] at hn
      simp at hn
    · obtain ⟨track2, he, hl⟩ := ih ⟨track.notes ++ [convertNote m n midiNum]⟩
        (mkAddedNote n midiNum :: acc) fun u hu => hpre u (List.mem_cons_of_mem n hu)
      refine ⟨track2, ?_, ?_⟩
      · show addNotesGo m track (n :: (pre2 ++ bad :: rest)) acc = (track2, none)
        unfold addNotesGo
        rw [hmn]
        exact he
      · rw [hl]
        simp only [List.length_append, List.length_cons, List.length_nil]
        omega

/-- C1 (amended): calling `addNotes` with an existing track on a batch in
which every note before some invalid-pitch note parses makes the call
fail WITH partial mutation: the notes preceding the first invalid one
have been added to the track (its note count grows by their number),
while the dirty flag is not set and no result is returned. -/
theorem addNotes_partial_mutation (m : Midi) (ti : ℕ) (track : Track)
    (pre : List NoteInput) (bad : NoteInput) (rest : List NoteInput)
    (htk : m.tracks[ti]? = some track)
    (hpre : ∀ n ∈ pre, (noteNameToMidi n.noteName).isSome)
    (hbad : noteNameToMidi bad.noteName = none) :
    ∃ track2 : Track,
      addNotes m ti (pre ++ bad :: rest) =
        ({ m with tracks := m.tracks.set ti track2 }, false, none) ∧
      track2.notes.length = track.notes.length + pre.length := by
  obtain ⟨track2, he, hl⟩ := addNotesGo_partial m bad hbad rest pre track [] hpre
  refine ⟨track2, ?_, hl⟩
  unfold addNotes
  rw [htk]
  show ((match addNotesGo m track (pre ++ bad :: rest) [] with
    | (tr2, none) => ({ m with tracks := m.tracks.set ti tr2 }, false, none)
    | (tr2, some addedL) => ({ m with tracks := m.tracks.set ti tr2 }, true,
        some { trackIndex := ti, added := addedL, totalNotesInTrack := tr2.notes.length })) :
      Midi × Bool × Option AddResult) =
    ({ m with tracks := m.tracks.set ti track2 }, false, none)
  rw [he]

/-- The one-empty-track document used to refute C1. -/
def addCexMidi : Midi :=
  { header := { ppq := 480, tempos := [], timeSignatures := [] }, tracks := [⟨[]⟩] }

/-- C1 counterexample: a batch of a valid `"C4"` followed by the invalid
`"H2"` on an empty track.  The call fails (no result, dirty not set), but
the track now holds ONE note, not the zero notes the claim requires. -/
theorem addNotes_not_atomic_cex :
    (addNotes addCexMidi 0 [⟨1, 1, "C4", none, 1⟩, ⟨1, 1, "H2", none, 1⟩]).2.2 = none ∧
    (addNotes addCexMidi 0 [⟨1, 1, "C4", none, 1⟩, ⟨1, 1, "H2", none, 1⟩]).2.1 = false ∧
    ((addNotes addCexMidi 0 [⟨1, 1, "C4", none, 1⟩, ⟨1, 1, "H2", none, 1⟩]).1.tracks[0]?).map
      (fun t => t.notes.length) = some 1 ∧
    ((addNotes addCexMidi 0 [⟨1, 1, "C4", none, 1⟩, ⟨1, 1, "H2", none, 1⟩]).1.tracks[0]?).map
      (fun t => t.notes.length) ≠ some 0 := by
  obtain ⟨track2, he, hl⟩ := addNotes_partial_mutation addCexMidi 0 ⟨[]⟩
    [⟨1, 1, "C4", none, 1⟩] ⟨1, 1, "H2", none, 1⟩ [] (by decide) (by decide) (by decide)
  have he2 : addNotes addCexMidi 0 [⟨1, 1, "C4", none, 1⟩, ⟨1, 1, "H2", none, 1⟩] =
      ({ addCexMidi with tracks := addCexMidi.tracks.set 0 track2 }, false, none) := he
  rw [he2]
  have hl2 : track2.notes.length = 1 := by
    rw [hl]
    rfl
  refine ⟨rfl, rfl, ?_, ?_⟩
  · show some track2.notes.length = some 1
    rw [hl2]
  · show some track2.notes.length ≠ some 0
    rw [hl2]
    decide

/-- Witness for `addNotes_partial_mutation` at the concrete batch
`["C4", "H2"]` on the empty track. -/
theorem addNotes_partial_mutation_witness :
    ∃ track2 : Track,
      addNotes addCexMidi 0 ([⟨1, 1, "C4", none, 1⟩] ++ ⟨1, 1, "H2", none, 1⟩ :: []) =
        ({ addCexMidi with tracks := addCexMidi.tracks.set 0 track2 }, false, none) ∧
      track2.notes.length = (⟨[]⟩ : Track).notes.length + [(⟨1, 1, "C4", none, 1⟩ : NoteInput)].length :=
  addNotes_partial_mutation addCexMidi 0 ⟨[]⟩ [⟨1, 1, "C4", none, 1⟩] ⟨1, 1, "H2", none, 1⟩ []
    (by decide) (by decide) (by decide)

/-! ### C10: pitch-class filter and octave -1 names -/

/-- For every pitch 0-11 the encoded name ends in `"-1"`, so stripping
the digit run leaves a name whose last character is the minus sign. -/
theorem strip_low_pitch_last : ∀ k : ℕ, k < 12 →
    ((jsStripDigits (midiToNoteName ((k : ℕ) : ℤ))).data).getLast? = some '-' := by
  decide

/-- Extracting the produced record's pitch from a match. -/
theorem mkSearchNote_midi (m : Midi) (fuel ti : ℕ) (n : Note) (r : SearchResultNote)
    (h : (mkSearchNote m fuel ti n).map some = some (some r)) : r.midi = n.midi := by
  unfold mkSearchNote at h
  rcases htmb : tickToMeasureBeat m n.ticks fuel with _ | pos
  · rw [htmb] at h
    cases h
  · rw [htmb] at h
    have h2 := Option.some.inj (Option.some.inj h)
    rw [← h2]

/-- A note that survives an active pitch-class filter has its stripped
encoded name equal to the uppercased filter; the produced record carries
the note's pitch. -/
theorem noteMatch_noteName (m : Midi) (o : SearchOpts) (fuel ti : ℕ) (n : Note)
    (f : String) (hf : o.noteName = some f) (hne : ¬f.data = [])
    (r : SearchResultNote) (h : noteMatch m o fuel ti n = some (some r)) :
    jsStripDigits (midiToNoteName n.midi) = jsToUpperCase f ∧ r.midi = n.midi := by
  unfold noteMatch at h
  by_cases h1 : (match o.pitchMin with | some p => decide (n.midi < p) | none => false) = true
  · rw [if_pos h1] at h
    simp at h
  · rw [if_neg h1] at h
    by_cases h2 : (match o.pitchMax with | some p => decide (p < n.midi) | none => false) = true
    · rw [if_pos h2] at h
      simp at h
    · rw [if_neg h2] at h
      by_cases h3 : noteNameFails o n = true
      · rw [if_pos h3] at h
        simp at h
      · rw [if_neg h3] at h
        have hname : jsStripDigits (midiToNoteName n.midi) = jsToUpperCase f := by
          unfold noteNameFails at h3
          rw [hf] at h3
          dsimp only at h3
          rw [if_neg hne] at h3
          simp only [decide_eq_true_eq] at h3
          exact not_not.mp h3
        refine ⟨hname, ?_⟩
        by_cases h4 : o.measureStart.isSome = true ∨ o.measureEnd.isSome = true
        · rw [if_pos h4] at h
          rcases htmb : tickToMeasureBeat m n.ticks fuel with _ | pos
          · rw [htmb] at h
            cases h
          · rw [htmb] at h
            dsimp only at h
            by_cases h5 : (match o.measureStart with
                | some ms => decide (pos.measure < ms) | none => false) = true
            · rw [if_pos h5] at h
              simp at h
            · rw [if_neg h5] at h
              by_cases h6 : (match o.measureEnd with
                  | some me => decide (me < pos.measure) | none => false) = true
              · rw [if_pos h6] at h
                simp at h
              · rw [if_neg h6] at h
                exact mkSearchNote_midi m fuel ti n r h
        · rw [if_neg h4] at h
          exact mkSearchNote_midi m fuel ti n r h

/-- Inverting `collectMatches` membership: every collected record comes
from a `noteMatch` on one of the scanned pairs. -/
theorem collectMatches_mem (m : Midi) (o : SearchOpts) (fuel : ℕ) :
    ∀ (pairs : List (ℕ × Note)) (rs : List SearchResultNote),
      collectMatches m o fuel pairs = some rs →
      ∀ r ∈ rs, ∃ p ∈ pairs, noteMatch m o fuel p.1 p.2 = some (some r) := by
  intro pairs
  induction pairs with
  | nil =>
    intro rs h r hr
    simp only [collectMatches] at h
    have : ([] : List SearchResultNote) = rs := Option.some.inj h
    rw [← this] at hr
    cases hr
  | cons p rest ih =>
    intro rs h r hr
    rw [collectMatches] at h
    rcases hnm : noteMatch m o fuel p.1 p.2 with _ | onm
    · rw [hnm] at h
      cases h
    · rw [hnm] at h
      rcases onm with _ | r0
      · obtain ⟨q, hq, hqm⟩ := ih rs h r hr
        exact ⟨q, List.mem_cons_of_mem p hq, hqm⟩
      · rcases hcr : collectMatches m o fuel rest with _ | rs2
        · rw [hcr] at h
          cases h
        · rw [hcr] at h
          have hcons : r0 :: rs2 = rs := Option.some.inj h
          rw [← hcons] at hr
          rcases List.mem_cons.mp hr with rfl | hr2
          · exact ⟨p, List.mem_cons_self p rest, hnm⟩
          · obtain ⟨q, hq, hqm⟩ := ih rs2 hcr r hr2
            exact ⟨q, List.mem_cons_of_mem p hq, hqm⟩

/-- C10 (amended): a search with a non-empty pitch-class filter whose
uppercased form does not end in `'-'` never returns a note with pitch in
`[0,11]`: such a note's encoded name (octave `-1`) keeps a trailing `'-'`
after the digits are stripped, so the filter comparison always fails.
(A filter ending in `'-'`, e.g. `"C#-"`, DOES match them — see the
counterexample.) -/
theorem searchNotes_low_pitch_never_matched (m : Midi) (o : SearchOpts) (fuel : ℕ)
    (f : String) (hf : o.noteName = some f) (hne : ¬f.data = [])
    (hlast : ¬(f.data.map Char.toUpper).getLast? = some '-')
    (r : SearchResult) (h : searchNotes m o fuel = some r) :
    ∀ e ∈ r.notes, ¬(0 ≤ e.midi ∧ e.midi ≤ 11) := by
  intro e he hlow
  unfold searchNotes at h
  rcases hcm : collectMatches m o fuel (scanPairs m o) with _ | found
  · rw [hcm] at h
    cases h
  · rw [hcm] at h
    dsimp only at h
    have hr := Option.some.inj h
    rw [← hr] at he
    have he2 : e ∈ List.insertionSort srnLE found := List.take_subset 200 _ he
    have he3 : e ∈ found := ((List.perm_insertionSort srnLE found).mem_iff).mp he2
    obtain ⟨p, hp, hpm⟩ := collectMatches_mem m o fuel _ found hcm e he3
    obtain ⟨hname, hmidi⟩ := noteMatch_noteName m o fuel p.1 p.2 f hf hne e hpm
    rw [hmidi] at hlow
    obtain ⟨k, hk12, hkeq⟩ : ∃ k : ℕ, k < 12 ∧ ((k : ℕ) : ℤ) = p.2.midi :=
      ⟨p.2.midi.toNat, by omega, by omega⟩
    have hdash := strip_low_pitch_last k hk12
    rw [hkeq] at hdash
    rw [hname] at hdash
    exact hlast hdash

/-- The one-note document (pitch 60, name `"C4"`) used to witness the
amended C10. -/
def cNoteMidi : Midi :=
  { header := { ppq := 480, tempos := [], timeSignatures := [] },
    tracks := [⟨[⟨0, 10, 60, 1⟩]⟩] }

/-- A pitch-class filter whose uppercased form does not end in a minus
sign. -/
def cOpts : SearchOpts := { noteName := some "C" }

/-- Concrete evaluation: searching `cNoteMidi` with filter `"C"` returns
exactly the pitch-60 note. -/
theorem searchNotes_c4_eval :
    searchNotes cNoteMidi cOpts 1 = some ⟨1, [⟨0, 1, 1, "C4", 60, 127, 10⟩]⟩ := by
  have htpm : ticksPerMeasure cNoteMidi 0 = 1920 := by
    show cNoteMidi.header.ppq * (timeSigAtTick cNoteMidi 0).1 *
      (4 / (timeSigAtTick cNoteMidi 0).2) = 1920
    rw [show timeSigAtTick cNoteMidi 0 = (4, 4) from rfl]
    show (480 : ℚ) * (4, (4 : ℚ)).1 * (4 / (4, (4 : ℚ)).2) = 1920
    norm_num
  have htmb : tickToMeasureBeat cNoteMidi 0 1 = some ⟨1, 1⟩ := by
    show tickToMeasureBeatAux cNoteMidi 0 (0 + 1) 0 1 = some ⟨1, 1⟩
    rw [tickToMeasureBeatAux, htpm]
    rw [if_pos (by norm_num : (0 : ℚ) < 0 + 1920)]
    norm_num
  have hmk : mkSearchNote cNoteMidi 1 0 ⟨0, 10, 60, 1⟩ =
      some ⟨0, 1, 1, "C4", 60, 127, 10⟩ := by
    unfold mkSearchNote
    rw [htmb]
    dsimp only
    rw [show ((1 : ℚ) * 100) = ((100 : ℤ) : ℚ) from by norm_num, jsRound_intCast]
    rw [show ((1 : ℚ) * 127) = ((127 : ℤ) : ℚ) from by norm_num, jsRound_intCast]
    rw [show midiToNoteName ((⟨0, 10, 60, 1⟩ : Note).midi) = "C4" from by decide]
    norm_num
  have hnm : noteMatch cNoteMidi cOpts 1 0 ⟨0, 10, 60, 1⟩ =
      some (some ⟨0, 1, 1, "C4", 60, 127, 10⟩) := by
    unfold noteMatch
    have c1 : ¬((match cOpts.pitchMin with
        | some p => decide ((⟨0, 10, 60, 1⟩ : Note).midi < p)
        | none => false) = true) := by decide
    have c2 : ¬((match cOpts.pitchMax with
        | some p => decide (p < (⟨0, 10, 60, 1⟩ : Note).midi)
        | none => false) = true) := by decide
    have c3 : ¬(noteNameFails cOpts ⟨0, 10, 60, 1⟩ = true) := by decide
    have c4 : ¬(cOpts.measureStart.isSome = true ∨
        cOpts.measureEnd.isSome = true) := by decide
    rw [if_neg c1, if_neg c2, if_neg c3, if_neg c4, hmk]
    rfl
  have hcm : collectMatches cNoteMidi cOpts 1 [(0, ⟨0, 10, 60, 1⟩)] =
      some [⟨0, 1, 1, "C4", 60, 127, 10⟩] := by
    rw [collectMatches]
    dsimp only
    rw [hnm]
    rfl
  unfold searchNotes
  rw [show scanPairs cNoteMidi cOpts = [(0, ⟨0, 10, 60, 1⟩)] from rfl]
  rw [hcm]
  rfl

/-- Witness for `searchNotes_low_pitch_never_matched`: the pitch-60
entry returned under filter `"C"` indeed has pitch outside `[0,11]`. -/
theorem searchNotes_low_pitch_never_matched_witness :
    ¬(0 ≤ (SearchResultNote.mk 0 1 1 "C4" 60 127 10).midi ∧
      (SearchResultNote.mk 0 1 1 "C4" 60 127 10).midi ≤ 11) :=
  searchNotes_low_pitch_never_matched cNoteMidi cOpts 1 "C" rfl (by decide) (by decide)
    ⟨1, [⟨0, 1, 1, "C4", 60, 127, 10⟩]⟩ searchNotes_c4_eval
    ⟨0, 1, 1, "C4", 60, 127, 10⟩ (by decide)

/-- The one-note document (pitch 1, name `"C#-1"`) used to refute C10. -/
def lowPitchMidi : Midi :=
  { header := { ppq := 480, tempos := [], timeSignatures := [] },
    tracks := [⟨[⟨0, 10, 1, 1⟩]⟩] }

/-- The pitch-class filter string that DOES match octave -1 names. -/
def lowPitchOpts : SearchOpts := { noteName := some "C#-" }

/-- C10 counterexample: the claim quantifies over EVERY filter string,
but the filter `"C#-"` (uppercased `"C#-"`) equals the digit-stripped
name `"C#-"` of pitch 1, so the search returns the pitch-1 note. -/
theorem searchNotes_octave_neg1_filter_cex :
    searchNotes lowPitchMidi lowPitchOpts 1 =
      some ⟨1, [⟨0, 1, 1, "C#-1", 1, 127, 10⟩]⟩ ∧
    lowPitchOpts.noteName = some "C#-" ∧
    (0 : ℤ) ≤ 1 ∧ (1 : ℤ) ≤ 11 := by
  have htpm : ticksPerMeasure lowPitchMidi 0 = 1920 := by
    show lowPitchMidi.header.ppq * (timeSigAtTick lowPitchMidi 0).1 *
      (4 / (timeSigAtTick lowPitchMidi 0).2) = 1920
    rw [show timeSigAtTick lowPitchMidi 0 = (4, 4) from rfl]
    show (480 : ℚ) * (4, (4 : ℚ)).1 * (4 / (4, (4 : ℚ)).2) = 1920
    norm_num
  have htmb : tickToMeasureBeat lowPitchMidi 0 1 = some ⟨1, 1⟩ := by
    show tickToMeasureBeatAux lowPitchMidi 0 (0 + 1) 0 1 = some ⟨1, 1⟩
    rw [tickToMeasureBeatAux, htpm]
    rw [if_pos (by norm_num : (0 : ℚ) < 0 + 1920)]
    norm_num
  have hmk : mkSearchNote lowPitchMidi 1 0 ⟨0, 10, 1, 1⟩ =
      some ⟨0, 1, 1, "C#-1", 1, 127, 10⟩ := by
    unfold mkSearchNote
    rw [htmb]
    dsimp only
    rw [show ((1 : ℚ) * 100) = ((100 : ℤ) : ℚ) from by norm_num, jsRound_intCast]
    rw [show ((1 : ℚ) * 127) = ((127 : ℤ) : ℚ) from by norm_num, jsRound_intCast]
    rw [show midiToNoteName ((⟨0, 10, 1, 1⟩ : Note).midi) = "C#-1" from by decide]
    norm_num
  have hnm : noteMatch lowPitchMidi lowPitchOpts 1 0 ⟨0, 10, 1, 1⟩ =
      some (some ⟨0, 1, 1, "C#-1", 1, 127, 10⟩) := by
    unfold noteMatch
    have c1 : ¬((match lowPitchOpts.pitchMin with
        | some p => decide ((⟨0, 10, 1, 1⟩ : Note).midi < p)
        | none => false) = true) := by decide
    have c2 : ¬((match lowPitchOpts.pitchMax with
        | some p => decide (p < (⟨0, 10, 1, 1⟩ : Note).midi)
        | none => false) = true) := by decide
    have c3 : ¬(noteNameFails lowPitchOpts ⟨0, 10, 1, 1⟩ = true) := by decide
    have c4 : ¬(lowPitchOpts.measureStart.isSome = true ∨
        lowPitchOpts.measureEnd.isSome = true) := by decide
    rw [if_neg c1, if_neg c2, if_neg c3, if_neg c4, hmk]
    rfl
  have hcm : collectMatches lowPitchMidi lowPitchOpts 1 [(0, ⟨0, 10, 1, 1⟩)] =
      some [⟨0, 1, 1, "C#-1", 1, 127, 10⟩] := by
    rw [collectMatches]
    dsimp only
    rw [hnm]
    rfl
  refine ⟨?_, rfl, by decide, by decide⟩
  unfold searchNotes
  rw [show scanPairs lowPitchMidi lowPitchOpts = [(0, ⟨0, 10, 1, 1⟩)] from rfl]
  rw [hcm]
  rfl

/-! ### C3: non-advancing measure walk -/

/-- The document used for C3: time signature `0/4` at tick 0, making
`ticksPerMeasure` zero everywhere the walk can reach. -/
def zeroSigMidi : Midi :=
  { header := { ppq := 480, tempos := [], timeSignatures := [⟨0, 0, 4⟩] }, tracks := [] }

theorem zeroSig_tpm : ticksPerMeasure zeroSigMidi 0 = 0 := by
  simp [ticksPerMeasure, timeSigAtTick, sigScan, zeroSigMidi]

/-- C3: the claim (and spec section 4.2) requires `tickToMeasureBeat` to
fail fast when `ticksPerMeasure` is zero; the code has no such guard, and
its `while (true)` walk never returns for tick 480 under a `0/4` time
signature — the fuelled model returns `none` for EVERY fuel value. -/
theorem tickToMeasureBeat_diverges_on_zero_tpm :
    ∀ fuel : ℕ, tickToMeasureBeat zeroSigMidi 480 fuel = none := by
  have key : ∀ fuel meas, tickToMeasureBeatAux zeroSigMidi 480 fuel 0 meas = none := by
    intro fuel
    induction fuel with
    | zero => intro meas; rfl
    | succ k ih =>
      intro meas
      rw [tickToMeasureBeatAux, if_neg]
      · rw [show (0 : ℚ) + ticksPerMeasure zeroSigMidi 0 = 0 by rw [zeroSig_tpm]; ring]
        exact ih (meas + 1)
      · rw [zeroSig_tpm]
        norm_num
  intro fuel
  exact key fuel 1

end Mozart
